import Mathlib

/-!
Verification of the `Data.Native.Array` sequence utility library
(src/index.js): curried, immutable helper functions over JavaScript
arrays.

Shallow embedding choices:
* a JavaScript array of elements of type `α` is a `List α`;
* the `Maybe` collaborator (`Nothing` / `Just`) is `Option`
  (`none` / `some`), with `isJust` as `Option.isSome`;
* JavaScript integer indices are `Int` (all index arithmetic in the
  source stays far from any floating-point rounding);
* `Array.prototype.sort`, whose algorithm ECMAScript leaves to the
  engine but requires to be stable, is modelled by the canonical
  stable insertion sort: each element is inserted after every
  already-placed element it does not strictly precede;
* `Array.prototype.slice` follows the ECMAScript clamping rules:
  a negative index counts from the end, then is clamped to
  `[0, length]`;
* the frame property (no operation mutates its inputs) is modelled
  with an explicit store of arrays: each operation becomes a step on
  the store, translated from the allocations and in-place writes the
  source performs, and we prove the step preserves every array
  already in the store.
-/

namespace MnArray

/-- `length` (src/index.js line 18): `a.length`. -/
def length (a : List α) : Nat :=
  a.length

/-- `findMap` (src/index.js lines 27-37): loop over the elements in
order; on the first `f` result that `isJust`, return that result;
after the loop return `Nothing`. -/
def findMap : List α → (α → Option β) → Option β
  | [], _ => none
  | x :: xs, f =>
    let fResult := f x
    if fResult.isSome then fResult else findMap xs f

/-- Instrumented variant of `findMap`: same control flow as the loop
of src/index.js lines 27-37, additionally recording the list of
elements on which `f` was evaluated, in evaluation order. -/
def findMapTrace : List α → (α → Option β) → Option β × List α
  | [], _ => (none, [])
  | x :: xs, f =>
    let fResult := f x
    if fResult.isSome then (fResult, [x])
    else
      let rest := findMapTrace xs f
      (rest.fst, x :: rest.snd)

/-- `append` (src/index.js lines 42-43): `[...a, item]`. -/
def append (a : List α) (item : α) : List α :=
  a ++ [item]

/-- `prepend` (src/index.js lines 50-51): `[item, ...a]`. -/
def prepend (item : α) (a : List α) : List α :=
  item :: a

/-- The effective index of `Array.prototype.slice` for an argument
`i` on an array of length `len`: negative values count from the end,
then the result is clamped to `[0, len]` (ECMAScript 23.1.3.28
steps for `relativeStart` / `relativeEnd`). -/
def sliceIndex (len : Nat) (i : Int) : Int :=
  if i < 0 then max ((len : Int) + i) 0 else min i (len : Int)

/-- `slice` (src/index.js lines 59-60): `a.slice(start, end)`, the
elements from the effective start (inclusive) to the effective end
(exclusive). -/
def slice (a : List α) (start «end» : Int) : List α :=
  let s := sliceIndex a.length start
  let e := sliceIndex a.length «end»
  (a.drop s.toNat).take (e - s).toNat

/-- `at` (src/index.js lines 69-72): `Nothing` when
`index < 0 || index >= a.length`, otherwise `Just(a[index])`. -/
def «at» (a : List α) (index : Int) : Option α :=
  if index < 0 ∨ (a.length : Int) ≤ index then none
  else a[index.toNat]?

/-- Ascending loop of `range` (src/index.js lines 84-88):
`for (lp = lower; lp < upper; lp += 1) result.push(lp)`. -/
def rangeAsc (lower upper : Int) : List Int :=
  if lower < upper then lower :: rangeAsc (lower + 1) upper else []
termination_by (upper - lower).toNat
decreasing_by omega

/-- Descending loop of `range` (src/index.js lines 90-94):
`for (lp = lower; lp > upper; lp -= 1) result.push(lp)`. -/
def rangeDesc (lower upper : Int) : List Int :=
  if upper < lower then lower :: rangeDesc (lower - 1) upper else []
termination_by (lower - upper).toNat
decreasing_by omega

/-- `range` (src/index.js lines 82-96): ascending loop when
`lower < upper`, otherwise descending loop. -/
def range (lower upper : Int) : List Int :=
  if lower < upper then rangeAsc lower upper else rangeDesc lower upper

/-- `concat` (src/index.js lines 103-104): `a1.concat(a2)`. -/
def concat (a1 a2 : List α) : List α :=
  a1 ++ a2

/-- `reduce` (src/index.js lines 112-115): `fNil()` when
`a.length === 0`, otherwise `fCons(a[0])(a.slice(1))`. -/
def reduce (a : List α) (fNil : Unit → β) (fCons : α → List α → β) : β :=
  match a with
  | [] => fNil ()
  | x :: xs => fCons x xs

/-- `zipWith` (src/index.js lines 124-133): the loop pushes
`f(a1[lp])(a2[lp])` for `lp` from `0` to
`min(a1.length, a2.length) - 1`; written as the equivalent structural
recursion on both lists. -/
def zipWith (f : α → β → γ) : List α → List β → List γ
  | x :: xs, y :: ys => f x y :: zipWith f xs ys
  | _, _ => []

/-- `map` (src/index.js lines 142-143): `a.map(f)`. -/
def map (f : α → β) (a : List α) : List β :=
  a.map f

/-- `join` (src/index.js lines 150-151): `a.join(sep)` — each element
converted to its string form, concatenated with `sep` between
consecutive elements. -/
def join [ToString α] (a : List α) (sep : String) : String :=
  String.intercalate sep (a.map toString)

/-- `filter` (src/index.js lines 159-160): `a.filter(predicate)`. -/
def filter (predicate : α → Bool) (a : List α) : List α :=
  a.filter predicate

/-- One insertion step of the stable sort modelling
`Array.prototype.sort`. The already-placed elements all come later in
the input than `x` (the sort below inserts from the right), so for
stability `x` is placed before the first element it does not strictly
follow (`compare x y ≤ 0`), in particular before every element that
compares equal to it. -/
def sortInsert (compare : α → α → Int) (x : α) : List α → List α
  | [] => [x]
  | y :: ys =>
    if compare x y ≤ 0 then x :: y :: ys else y :: sortInsert compare x ys

/-- `sort` (src/index.js lines 171-172):
`[...a].sort((x, y) => compare(x)(y))`. The engine-level sort is
implementation-defined but ECMAScript requires it to be stable; it is
modelled by the canonical stable insertion sort built from
`sortInsert`. The spread `[...a]` (sorting a copy, not the argument)
is accounted for in the store model below. -/
def sort (compare : α → α → Int) : List α → List α
  | [] => []
  | x :: xs => sortInsert compare x (sort compare xs)

/-!
Store model for the frame property. JavaScript arrays are heap
references; an operation could in principle write through a reference
it received. The store is the list of all allocated arrays, a
reference is an index into it, and each library call becomes a step
on the store, translated from the allocations and in-place writes the
source performs (`[...a]`, `a.concat`, `push` onto a fresh result,
`.sort` on the fresh copy). The element type is instantiated at `Int`
(the source is untyped; one representative element domain suffices
for the frame property).
-/

/-- The store of all allocated arrays; a reference is an index. -/
abbrev Store := List (List Int)

/-- Dereference `r` in store `h`. -/
def lookup (h : Store) (r : Nat) : List Int :=
  h.getD r []

/-- A call to one of the fourteen exported operations
(src/index.js lines 177-192), with array arguments given as
references into the store and collaborator functions as pure values
(per the spec they never mutate anything). -/
inductive Call where
  | length (r : Nat)
  | findMap (r : Nat) (f : Int → Option Int)
  | append (r : Nat) (item : Int)
  | prepend (item : Int) (r : Nat)
  | slice (r : Nat) (start «end» : Int)
  | «at» (r : Nat) (index : Int)
  | range (lower upper : Int)
  | concat (r1 r2 : Nat)
  | reduce (r : Nat) (fNil : Unit → Int) (fCons : Int → List Int → Int)
  | zipWith (f : Int → Int → Int) (r1 r2 : Nat)
  | map (f : Int → Int) (r : Nat)
  | join (r : Nat) (sep : String)
  | filter (predicate : Int → Bool) (r : Nat)
  | sort (compare : Int → Int → Int) (r : Nat)

/-- The result of a call: either a reference to an array in the
store, or a scalar/derived value (integer, optional, string). -/
inductive RVal where
  | arr (r : Nat)
  | int (z : Int)
  | opt (o : Option Int)
  | str (s : String)

/-- One library call as a step on the store, following the source:
operations returning an array allocate it fresh (`[...a, item]`,
`[item, ...a]`, `a.slice(...)`, `a.concat(a2)`, a `push`-filled local
`result`); `reduce` allocates the tail `a.slice(1)` it passes to
`fCons`; `sort` first allocates the copy `[...a]` and then reorders
that copy in place; no step writes to an existing entry. -/
def step (h : Store) : Call → Store × RVal
  | .length r => (h, .int (length (lookup h r)))
  | .findMap r f => (h, .opt (findMap (lookup h r) f))
  | .append r item => (h ++ [append (lookup h r) item], .arr h.length)
  | .prepend item r => (h ++ [prepend item (lookup h r)], .arr h.length)
  | .slice r start «end» =>
      (h ++ [slice (lookup h r) start «end»], .arr h.length)
  | .«at» r index => (h, .opt («at» (lookup h r) index))
  | .range lower upper => (h ++ [range lower upper], .arr h.length)
  | .concat r1 r2 =>
      (h ++ [concat (lookup h r1) (lookup h r2)], .arr h.length)
  | .reduce r fNil fCons =>
      match lookup h r with
      | [] => (h, .int (fNil ()))
      | x :: xs => (h ++ [xs], .int (fCons x xs))
  | .zipWith f r1 r2 =>
      (h ++ [zipWith f (lookup h r1) (lookup h r2)], .arr h.length)
  | .map f r => (h ++ [map f (lookup h r)], .arr h.length)
  | .join r sep => (h, .str (join (lookup h r) sep))
  | .filter predicate r =>
      (h ++ [filter predicate (lookup h r)], .arr h.length)
  | .sort compare r =>
      let copy := lookup h r
      let h1 := h ++ [copy]
      let h2 := h1.set h.length (sort compare copy)
      (h2, .arr h.length)

/-- A call result refers only to freshly allocated storage: it is a
scalar/derived value, or an array reference at or past the old end of
the store. -/
def freshFor (n : Nat) : RVal → Prop
  | .arr r => n ≤ r
  | _ => True

/-! ### Helper lemmas -/

theorem slice_eq (a : List α) (start «end» : Int) :
    slice a start «end» =
      (a.drop (sliceIndex a.length start).toNat).take
        (sliceIndex a.length «end» - sliceIndex a.length start).toNat :=
  rfl

theorem sliceIndex_of_low {len : Nat} {i : Int}
    (h : i ≤ -(len : Int)) : sliceIndex len i = 0 := by
  unfold sliceIndex
  split <;> omega

theorem sliceIndex_zero (len : Nat) : sliceIndex len 0 = 0 := by
  unfold sliceIndex
  split <;> omega

theorem sliceIndex_of_high {len : Nat} {i : Int}
    (h : (len : Int) ≤ i) : sliceIndex len i = len := by
  unfold sliceIndex
  split <;> omega

theorem sliceIndex_of_neg {len : Nat} {i : Int}
    (h0 : i < 0) (h1 : -(len : Int) ≤ i) :
    sliceIndex len i = (len : Int) + i := by
  unfold sliceIndex
  split <;> omega

theorem sliceIndex_of_nonneg_shift {len : Nat} {i : Int}
    (h0 : i < 0) (h1 : -(len : Int) ≤ i) :
    sliceIndex len (i + len) = (len : Int) + i := by
  unfold sliceIndex
  split <;> omega

/-! ### The claims -/

/-- Claim C3: `at(seq)(index)` returns `Present(seq[index])` when
`0 ≤ index < length(seq)` and `Absent` otherwise; every negative
index yields `Absent`, never an element counted from the end. -/
theorem at_spec (a : List α) (index : Int) :
    (∀ (_ : 0 ≤ index) (_ : index < (a.length : Int)),
      ∃ hn : index.toNat < a.length,
        «at» a index = some (a.get ⟨index.toNat, hn⟩)) ∧
    ((index < 0 ∨ (a.length : Int) ≤ index) → «at» a index = none) := by
  constructor
  · intro h0 hlt
    have hn : index.toNat < a.length := by omega
    refine ⟨hn, ?_⟩
    unfold «at»
    rw [if_neg (by omega)]
    simp [List.getElem?_eq_getElem hn]
  · intro hout
    unfold «at»
    rw [if_pos hout]

/-- Witness for C3 at the inputs of the source's own examples. -/
theorem at_spec_witness :
    «at» [1, 2, 3, 4] (3 : Int) = some 4 ∧
    «at» [1, 2, 3, 4] (-2 : Int) = none := by
  constructor
  · obtain ⟨hn, he⟩ := (at_spec [1, 2, 3, 4] 3).1 (by decide) (by decide)
    simpa using he
  · exact (at_spec [1, 2, 3, 4] (-2)).2 (by decide)

/-- Claim C8: `reduce(seq)(onEmpty)(onNonEmpty)` returns `onEmpty()`
on the empty sequence and otherwise `onNonEmpty(head)(tail)` with
`head = seq[0]` and `tail = seq[1:]`: exactly one level of head/tail
decomposition, not an accumulating fold. -/
theorem reduce_spec (a : List α) (fNil : Unit → β)
    (fCons : α → List α → β) :
    (a = [] → reduce a fNil fCons = fNil ()) ∧
    (∀ h : a ≠ [], reduce a fNil fCons = fCons (a.head h) a.tail) := by
  cases a <;> simp [reduce]

/-- Witness for C8 at the inputs of the source's own examples. -/
theorem reduce_spec_witness :
    reduce ([] : List Int) (fun _ => ((0 : Int), ([] : List Int)))
      (fun h t => (h, t)) = (0, []) ∧
    reduce [1, 2, 3] (fun _ => ((0 : Int), ([] : List Int)))
      (fun h t => (h, t)) = (1, [2, 3]) := by
  constructor
  · exact (reduce_spec [] _ _).1 rfl
  · simpa using (reduce_spec [1, 2, 3] (fun _ => ((0 : Int), []))
      (fun h t => (h, t))).2 (by simp)

/-- Claim C9: the empty sequence is a two-sided identity for
`concat`, and `concat(seq1)(seq2)` is the elements of `seq1` followed
by those of `seq2`, with length the sum of the lengths. -/
theorem concat_spec (a1 a2 s : List α) :
    concat s [] = s ∧ concat [] s = s ∧
    (concat a1 a2).length = a1.length + a2.length ∧
    (∀ i, i < a1.length → (concat a1 a2)[i]? = a1[i]?) ∧
    (∀ j, j < a2.length →
      (concat a1 a2)[a1.length + j]? = a2[j]?) := by
  refine ⟨by simp [concat], by simp [concat], by simp [concat],
    fun i hi => ?_, fun j hj => ?_⟩
  · exact List.getElem?_append_left hi
  · rw [concat, List.getElem?_append_right (by omega)]
    congr 1
    omega

/-- Witness for C9 at the inputs of the source's own examples. -/
theorem concat_spec_witness :
    concat ([9] : List Int) [] = [9] ∧
    (concat ([1, 2] : List Int) [3, 4]).length = 4 ∧
    (concat ([1, 2] : List Int) [3, 4])[1]? = some 2 ∧
    (concat ([1, 2] : List Int) [3, 4])[3]? = some 4 := by
  obtain ⟨h1, _, h3, h4, h5⟩ :=
    concat_spec ([1, 2] : List Int) [3, 4] [9]
  refine ⟨h1, by simpa using h3, h4 1 (by decide), ?_⟩
  simpa using h5 1 (by decide)

/-- Claim C10: `slice` clamps out-of-range indices to the bounds of
the sequence: a start at or below `-length` behaves exactly as start
`0`, and an end at or above `length` behaves exactly as end
`length`. -/
theorem slice_clamp (a : List α) (start «end» : Int) :
    (start ≤ -(a.length : Int) →
      slice a start «end» = slice a 0 «end») ∧
    ((a.length : Int) ≤ «end» →
      slice a start «end» = slice a start (a.length : Int)) := by
  constructor
  · intro h
    rw [slice_eq, slice_eq, sliceIndex_of_low h, sliceIndex_zero]
  · intro h
    rw [slice_eq, slice_eq, sliceIndex_of_high h,
      sliceIndex_of_high (le_refl _)]

/-- Witness for C10: a start far below `-length` and an end far above
`length` act as `0` and `length`. -/
theorem slice_clamp_witness :
    slice [1, 2, 3] (-7 : Int) 2 = slice [1, 2, 3] 0 2 ∧
    slice [1, 2, 3] 1 (99 : Int) = slice [1, 2, 3] 1 3 := by
  constructor
  · exact (slice_clamp [1, 2, 3] (-7) 2).1 (by decide)
  · have h := (slice_clamp [1, 2, 3] 1 99).2 (by decide)
    simpa using h

/-- Claim C5: `slice` never raises (it is a total function of its
arguments): a negative index in `[-length, 0)` counts from the end of
the sequence, and whenever the effective range is empty or invalid
(effective start at or past the effective end, which covers inverted
and entirely out-of-bounds ranges), the result is the empty
sequence. -/
theorem slice_safe (a : List α) (start «end» : Int) :
    (start < 0 → -(a.length : Int) ≤ start →
      slice a start «end» = slice a (start + a.length) «end») ∧
    («end» < 0 → -(a.length : Int) ≤ «end» →
      slice a start «end» = slice a start («end» + a.length)) ∧
    (sliceIndex a.length «end» ≤ sliceIndex a.length start →
      slice a start «end» = []) := by
  refine ⟨fun h0 h1 => ?_, fun h0 h1 => ?_, fun h => ?_⟩
  · rw [slice_eq, slice_eq, sliceIndex_of_neg h0 h1,
      sliceIndex_of_nonneg_shift h0 h1]
  · rw [slice_eq, slice_eq, sliceIndex_of_neg h0 h1,
      sliceIndex_of_nonneg_shift h0 h1]
  · have h0 : (sliceIndex a.length «end» -
        sliceIndex a.length start).toNat = 0 := by omega
    rw [slice_eq, h0, List.take_zero]

/-- Witness for C5, including the source's own example
`slice([1,2,3,4])(3)(-1) == []`. -/
theorem slice_safe_witness :
    slice [1, 2, 3, 4] (-3 : Int) 3 = slice [1, 2, 3, 4] 1 3 ∧
    slice [1, 2, 3, 4] 3 (-1 : Int) = [] := by
  constructor
  · have h := (slice_safe [1, 2, 3, 4] (-3) 3).1 (by decide) (by decide)
    simpa using h
  · exact (slice_safe [1, 2, 3, 4] 3 (-1)).2.2 (by decide)

theorem rangeAsc_eq :
    ∀ (n : Nat) (lower upper : Int), (upper - lower).toNat = n →
      rangeAsc lower upper =
        (List.range n).map (fun (k : Nat) => lower + (k : Int)) := by
  intro n
  induction n with
  | zero =>
    intro lower upper h
    rw [rangeAsc.eq_def, if_neg (by omega)]
    simp
  | succ m ih =>
    intro lower upper h
    rw [rangeAsc.eq_def, if_pos (by omega), ih (lower + 1) upper (by omega),
      List.range_succ_eq_map]
    simp only [List.map_cons, List.map_map, Nat.cast_zero, add_zero,
      List.cons.injEq, true_and]
    apply List.map_congr_left
    intro k _
    simp only [Function.comp_apply]
    push_cast
    ring

theorem rangeDesc_eq :
    ∀ (n : Nat) (lower upper : Int), (lower - upper).toNat = n →
      rangeDesc lower upper =
        (List.range n).map (fun (k : Nat) => lower - (k : Int)) := by
  intro n
  induction n with
  | zero =>
    intro lower upper h
    rw [rangeDesc.eq_def, if_neg (by omega)]
    simp
  | succ m ih =>
    intro lower upper h
    rw [rangeDesc.eq_def, if_pos (by omega), ih (lower - 1) upper (by omega),
      List.range_succ_eq_map]
    simp only [List.map_cons, List.map_map, Nat.cast_zero, sub_zero,
      List.cons.injEq, true_and]
    apply List.map_congr_left
    intro k _
    simp only [Function.comp_apply]
    push_cast
    ring

/-- Claim C4: `range(lower)(upper)` is the ascending sequence
`lower, lower+1, ..., upper-1` when `lower < upper`, the descending
sequence `lower, lower-1, ..., upper+1` when `lower >= upper`, and
empty when `lower == upper`; the bound `upper` is always excluded. -/
theorem range_spec (lower upper : Int) :
    (lower < upper →
      range lower upper =
        (List.range (upper - lower).toNat).map
          (fun (k : Nat) => lower + (k : Int))) ∧
    (upper ≤ lower →
      range lower upper =
        (List.range (lower - upper).toNat).map
          (fun (k : Nat) => lower - (k : Int))) ∧
    (lower = upper → range lower upper = []) := by
  refine ⟨fun h => ?_, fun h => ?_, fun h => ?_⟩
  · rw [range, if_pos h]
    exact rangeAsc_eq _ lower upper rfl
  · rw [range, if_neg (by omega)]
    exact rangeDesc_eq _ lower upper rfl
  · subst h
    rw [range, if_neg (by omega), rangeDesc.eq_def, if_neg (by omega)]

/-- Witness for C4 at the source's own examples and at equal
bounds. -/
theorem range_spec_witness :
    range 1 10 = [1, 2, 3, 4, 5, 6, 7, 8, 9] ∧
    range 10 1 = [10, 9, 8, 7, 6, 5, 4, 3, 2] ∧
    range 5 5 = [] := by
  refine ⟨?_, ?_, (range_spec 5 5).2.2 rfl⟩
  · rw [(range_spec 1 10).1 (by decide)]
    decide
  · rw [(range_spec 10 1).2.1 (by decide)]
    decide

theorem zipWith_eq_lib (f : α → β → γ) (a1 : List α) (a2 : List β) :
    zipWith f a1 a2 = List.zipWith f a1 a2 := by
  induction a1 generalizing a2 with
  | nil => cases a2 <;> rfl
  | cons x xs ih =>
    cases a2 with
    | nil => rfl
    | cons y ys => simp [zipWith, ih]

/-- Claim C7: `zipWith(f)(seq1)(seq2)` has length
`min(length(seq1), length(seq2))`, its element at each index `i` in
range is `f(seq1[i])(seq2[i])`, and the extra elements of the longer
input are discarded. -/
theorem zipWith_spec (f : α → β → γ) (a1 : List α) (a2 : List β) :
    (zipWith f a1 a2).length = min a1.length a2.length ∧
    ∀ i (h1 : i < a1.length) (h2 : i < a2.length),
      (zipWith f a1 a2)[i]? =
        some (f (a1.get ⟨i, h1⟩) (a2.get ⟨i, h2⟩)) := by
  constructor
  · rw [zipWith_eq_lib]
    exact List.length_zipWith f a1 a2
  · intro i h1 h2
    rw [zipWith_eq_lib]
    have hlen : i < (List.zipWith f a1 a2).length := by
      rw [List.length_zipWith]
      omega
    rw [List.getElem?_eq_getElem hlen, List.getElem_zipWith]
    simp

/-- Witness for C7 at the source's own example
`zipWith(mul)([1,2,3])([4,5,6,7]) == [4,10,18]`. -/
theorem zipWith_spec_witness :
    (zipWith (fun a b => a * b) ([1, 2, 3] : List Int)
      [4, 5, 6, 7]).length = 3 ∧
    (zipWith (fun a b => a * b) ([1, 2, 3] : List Int)
      [4, 5, 6, 7])[2]? = some 18 := by
  obtain ⟨h1, h2⟩ :=
    zipWith_spec (fun a b => a * b) ([1, 2, 3] : List Int) [4, 5, 6, 7]
  refine ⟨by simpa using h1, ?_⟩
  have h := h2 2 (by decide) (by decide)
  simpa using h

theorem findMapTrace_fst (a : List α) (f : α → Option β) :
    (findMapTrace a f).fst = findMap a f := by
  induction a with
  | nil => rfl
  | cons x xs ih =>
    simp only [findMapTrace, findMap]
    split <;> simp [ih]

theorem findMap_eq_none_iff (a : List α) (f : α → Option β) :
    findMap a f = none ↔ ∀ x ∈ a, f x = none := by
  induction a with
  | nil => simp [findMap]
  | cons x xs ih =>
    cases hfx : f x with
    | some b => simp [findMap, hfx]
    | none => simp [findMap, hfx, ih]

theorem findMap_first (a : List α) (f : α → Option β) :
    ∀ i (hi : i < a.length),
      (f (a.get ⟨i, hi⟩)).isSome = true →
      (∀ j (hj : j < i), f (a.get ⟨j, Nat.lt_trans hj hi⟩) = none) →
      findMap a f = f (a.get ⟨i, hi⟩) ∧
      (findMapTrace a f).snd = a.take (i + 1) := by
  induction a with
  | nil =>
    intro i hi
    exact absurd hi (by simp)
  | cons x xs ih =>
    intro i hi hsome hnone
    cases i with
    | zero =>
      simp only [List.get_eq_getElem, List.getElem_cons_zero] at hsome
      constructor
      · simp [findMap, hsome]
      · simp [findMapTrace, hsome]
    | succ i2 =>
      have hx : f x = none := by
        have := hnone 0 (Nat.succ_pos i2)
        simpa using this
      have hi2 : i2 < xs.length := by
        simpa [Nat.succ_lt_succ_iff] using hi
      obtain ⟨h1, h2⟩ := ih i2 hi2 (by simpa using hsome)
        (fun j hj => by
          have := hnone (j + 1) (Nat.succ_lt_succ hj)
          simpa using this)
      constructor
      · simpa [findMap, hx] using h1
      · simp [findMapTrace, hx, h2]

/-- Claim C1: `findMap(seq)(f)` returns the first `Present` result of
applying `f` to the elements of `seq` in left-to-right order, and
`Absent` when no application yields `Present` or the sequence is
empty; `f` is not evaluated on any element after the first success
(the instrumented trace is exactly the prefix of `seq` up to and
including the first success). -/
theorem findMap_spec (a : List α) (f : α → Option β) :
    findMap ([] : List α) f = none ∧
    (findMap a f = none ↔ ∀ x ∈ a, f x = none) ∧
    (∀ i (hi : i < a.length),
      (f (a.get ⟨i, hi⟩)).isSome = true →
      (∀ j (hj : j < i), f (a.get ⟨j, Nat.lt_trans hj hi⟩) = none) →
      findMap a f = f (a.get ⟨i, hi⟩) ∧
      (findMapTrace a f).snd = a.take (i + 1)) ∧
    (findMapTrace a f).fst = findMap a f :=
  ⟨rfl, findMap_eq_none_iff a f, findMap_first a f, findMapTrace_fst a f⟩

/-- Witness for C1: on `[1, 2, 3]` with a mapping succeeding from `2`
on, the first success is returned and `f` was evaluated on `[1, 2]`
only. -/
theorem findMap_spec_witness :
    findMap ([1, 2, 3] : List Int)
      (fun n => if 2 ≤ n then some (n * 10) else none) = some 20 ∧
    (findMapTrace ([1, 2, 3] : List Int)
      (fun n => if 2 ≤ n then some (n * 10) else none)).snd = [1, 2] := by
  obtain ⟨-, -, h3, -⟩ := findMap_spec ([1, 2, 3] : List Int)
    (fun n => if 2 ≤ n then some (n * 10) else none)
  obtain ⟨h1, h2⟩ := h3 1 (by decide) (by decide)
    (fun j hj => by
      have hj0 : j = 0 := by omega
      subst hj0
      simp)
  constructor
  · rw [h1]
    decide
  · rw [h2]
    decide

theorem sortInsert_perm (compare : α → α → Int) (x : α) (l : List α) :
    (sortInsert compare x l).Perm (x :: l) := by
  induction l with
  | nil => exact List.Perm.refl _
  | cons y ys ih =>
    simp only [sortInsert]
    split
    · exact List.Perm.refl _
    · exact (ih.cons y).trans (List.Perm.swap x y ys)

theorem sort_perm (compare : α → α → Int) (l : List α) :
    (sort compare l).Perm l := by
  induction l with
  | nil => exact List.Perm.refl _
  | cons x xs ih =>
    exact (sortInsert_perm compare x (sort compare xs)).trans (ih.cons x)

theorem sublist_sortInsert (compare : α → α → Int) (x : α)
    (l : List α) : l.Sublist (sortInsert compare x l) := by
  induction l with
  | nil => exact List.nil_sublist _
  | cons y ys ih =>
    simp only [sortInsert]
    split
    · exact List.sublist_cons_self x (y :: ys)
    · exact ih.cons₂ y

theorem pair_sublist_sortInsert {compare : α → α → Int} {x y : α}
    (hle : compare x y ≤ 0) :
    ∀ {m : List α}, y ∈ m → [x, y].Sublist (sortInsert compare x m) := by
  intro m
  induction m with
  | nil =>
    intro hy
    exact absurd hy (List.not_mem_nil y)
  | cons w ws ih =>
    intro hy
    simp only [sortInsert]
    split
    · exact (List.singleton_sublist.mpr hy).cons₂ x
    · rename_i hnot
      cases List.mem_cons.mp hy with
      | inl heq => exact absurd (heq ▸ hle) hnot
      | inr hmem => exact (ih hmem).cons w

theorem sort_stable_pair {compare : α → α → Int} {x y : α} :
    ∀ {l : List α}, [x, y].Sublist l → compare x y = 0 →
      [x, y].Sublist (sort compare l) := by
  intro l
  induction l with
  | nil =>
    intro h _
    exact absurd h (by simp)
  | cons z zs ih =>
    intro h h0
    cases h with
    | cons _ h2 =>
      exact (ih h2 h0).trans (sublist_sortInsert compare z (sort compare zs))
    | cons₂ _ h2 =>
      have hy : y ∈ sort compare zs :=
        (sort_perm compare zs).mem_iff.mpr (List.singleton_sublist.mp h2)
      exact pair_sublist_sortInsert h0.le hy

/-- Claim C2: for every comparator, `sort(compare)(seq)` is a
permutation of `seq` (no element lost or duplicated, even for
comparators violating reflexivity or transitivity), and it is stable:
whenever `x` occurs before `y` in `seq` (as the sub-list `[x, y]`)
and `compare(x)(y) == 0`, then `x` occurs before `y` in the
output. -/
theorem sort_spec (compare : α → α → Int) (l : List α) :
    (sort compare l).Perm l ∧
    ∀ x y, [x, y].Sublist l → compare x y = 0 →
      [x, y].Sublist (sort compare l) :=
  ⟨sort_perm compare l, fun _ _ h h0 => sort_stable_pair h h0⟩

/-- Witness for C2: a comparator that deems everything equal (hence
wildly violating a strict order's expectations) still permutes, and
keeps the equal pair `4, 7` in input order. -/
theorem sort_spec_witness :
    (sort (fun _ _ => (0 : Int)) ([4, 7] : List Int)).Perm [4, 7] ∧
    [4, 7].Sublist (sort (fun _ _ => (0 : Int)) ([4, 7] : List Int)) := by
  obtain ⟨h1, h2⟩ := sort_spec (fun _ _ => (0 : Int)) ([4, 7] : List Int)
  exact ⟨h1, h2 4 7 (List.Sublist.refl _) rfl⟩

theorem store_set_append (h : Store) (x y : List Int) :
    (h ++ [x]).set h.length y = h ++ [y] := by
  induction h with
  | nil => rfl
  | cons a t ih =>
    simp only [List.cons_append, List.length_cons, List.set_cons_succ]
    rw [ih]

/-- Claim C6: no operation mutates its input sequences. In the store
model, every library call leaves every previously allocated array
unchanged (in particular `sort`, which reorders only the fresh copy
`[...a]`), and any sequence the call returns is a freshly allocated
one. -/
theorem step_no_mutation (h : Store) (c : Call) :
    (∀ i, i < h.length → (step h c).fst[i]? = h[i]?) ∧
    freshFor h.length (step h c).snd := by
  cases c with
  | length r => exact ⟨fun i hi => rfl, trivial⟩
  | findMap r f => exact ⟨fun i hi => rfl, trivial⟩
  | append r item =>
    exact ⟨fun i hi => List.getElem?_append_left hi, Nat.le_refl _⟩
  | prepend item r =>
    exact ⟨fun i hi => List.getElem?_append_left hi, Nat.le_refl _⟩
  | slice r start «end» =>
    exact ⟨fun i hi => List.getElem?_append_left hi, Nat.le_refl _⟩
  | «at» r index => exact ⟨fun i hi => rfl, trivial⟩
  | range lower upper =>
    exact ⟨fun i hi => List.getElem?_append_left hi, Nat.le_refl _⟩
  | concat r1 r2 =>
    exact ⟨fun i hi => List.getElem?_append_left hi, Nat.le_refl _⟩
  | reduce r fNil fCons =>
    constructor
    · intro i hi
      simp only [step]
      split
      · rfl
      · exact List.getElem?_append_left hi
    · simp only [step]
      split <;> trivial
  | zipWith f r1 r2 =>
    exact ⟨fun i hi => List.getElem?_append_left hi, Nat.le_refl _⟩
  | map f r =>
    exact ⟨fun i hi => List.getElem?_append_left hi, Nat.le_refl _⟩
  | join r sep => exact ⟨fun i hi => rfl, trivial⟩
  | filter predicate r =>
    exact ⟨fun i hi => List.getElem?_append_left hi, Nat.le_refl _⟩
  | sort compare r =>
    constructor
    · intro i hi
      show ((h ++ [lookup h r]).set h.length
        (sort compare (lookup h r)))[i]? = h[i]?
      rw [store_set_append]
      exact List.getElem?_append_left hi
    · exact Nat.le_refl _

/-- Witness for C6: sorting the stored array `[2, 1]` leaves the
store entry `[2, 1]` untouched and returns a fresh reference. -/
theorem step_no_mutation_witness :
    (step [[2, 1]] (.sort (fun a b => a - b) 0)).fst[0]? = some [2, 1] ∧
    freshFor 1 (step [[2, 1]] (.sort (fun a b => a - b) 0)).snd := by
  obtain ⟨h1, h2⟩ := step_no_mutation [[2, 1]] (.sort (fun a b => a - b) 0)
  refine ⟨?_, h2⟩
  have h0 := h1 0 (by decide)
  simpa using h0

end MnArray

